import Mathlib

/-!
Verification of the Kudu partition pruner
(`src/kudu/common/partition_pruner.{h,cc}`).

The pruner computes, from a scan specification, the set of encoded
partition-key ranges a scanner must visit, stores them as a consumable
cursor (per range segment, in reverse order), and exposes
`HasMorePartitionKeyRanges` / `NextPartitionKey` /
`RemovePartitionKeyRange` / `ShouldPrune`.

Encoded keys are C++ `std::string`s compared with `memcmp` semantics
(unsigned lexicographic).  They are modelled as `List Nat` with an
explicit lexicographic comparison `ltKey` mirroring `operator<` on
`std::string`.
-/

namespace KuduPruner

/-- An encoded partition key: a byte string, modelled as a list of bytes.
C++ `std::string` comparison is unsigned lexicographic. -/
abbrev Key := List Nat

/-- `a < b` on byte strings: unsigned lexicographic (memcmp) order, the
order used by `std::string::operator<` in the source. -/
def ltKey : Key → Key → Bool
  | [], [] => false
  | [], _ :: _ => true
  | _ :: _, [] => false
  | a :: as, b :: bs => a < b || (a == b && ltKey as bs)

/-- `a ≤ b` on byte strings, as used for `<=`/`>=` in the source. -/
def leKey (a b : Key) : Bool := !(ltKey b a)

/-! ## Data model (`partition_pruner.h`) -/

/-- `PartitionPruner::PartitionKeyRange`: an `[start, end)` interval over
encoded partition keys; an empty `end` means +∞.  The C++ field `end` is
named `stop` here because `end` is a Lean keyword. -/
structure PartitionKeyRange where
  start : Key
  stop : Key
deriving DecidableEq, Repr

/-- `PartitionPruner::RangeBounds`: an `[lower, upper)` interval over the
encoded range portion of the partition key; empty means unbounded. -/
structure RangeBounds where
  lower : Key
  upper : Key
deriving DecidableEq, Repr

/-- `PartitionPruner::RangeBoundsAndPartitionKeyRanges`: one range
segment's bounds together with its partition key ranges, stored in
reverse (descending-`start`) order so consumption pops from the tail. -/
structure RangeBoundsAndPartitionKeyRanges where
  range_bounds : RangeBounds
  partition_key_ranges : List PartitionKeyRange
deriving DecidableEq, Repr

/-- The pruner state: the field `range_bounds_to_partition_key_ranges_`. -/
structure PartitionPruner where
  range_bounds_to_partition_key_ranges : List RangeBoundsAndPartitionKeyRanges
deriving DecidableEq, Repr

/-- `Partition` (from `partition.h`, external): the catalog partition data
that `ShouldPrune` consumes — its range keys and partition keys. -/
structure Partition where
  range_key_start : Key
  range_key_end : Key
  partition_key_start : Key
  partition_key_end : Key
deriving DecidableEq, Repr

/-- A hash dimension, reduced to its scan-resolved surviving-bucket
bitset.  Lines 232-253 of `partition_pruner.cc` compute, per dimension,
either the `PruneHashComponent` bitset (when every column of the
dimension carries an Equality or InList predicate) or the all-`true`
bitset of length `num_buckets`; the predicate map, the key encoder and
the hash function those lines consume are external to this repository,
so each dimension is modelled by the resolved bitset (`num_buckets` is
its length). -/
abbrev HashSchema := List (List Bool)

/-- A `PartitionSchema::RangeWithHashSchema`: one custom range segment
with its own hash schema. -/
structure RangeWithHashSchema where
  lower : Key
  upper : Key
  hash_schema : HashSchema
deriving DecidableEq, Repr

/-- The parts of `PartitionSchema` the pruner reads: the table-wide hash
schema and the custom range segments (empty = single unbounded segment). -/
structure PartitionSchema where
  hash_schema : HashSchema
  ranges_with_hash_schemas : List RangeWithHashSchema
deriving DecidableEq, Repr

/-- The parts of `ScanSpec` that `Init` and `ConstructPartitionKeyRanges`
read directly (the predicates feeding hash pruning are already resolved
into the `HashSchema` bitsets, and the derived range bounds are passed to
`Init` separately). -/
structure ScanSpec where
  can_short_circuit : Bool
  lower_bound_partition_key : Key
  exclusive_upper_bound_partition_key : Key
deriving DecidableEq, Repr

/-! ## `ConstructPartitionKeyRanges` (`partition_pruner.cc` lines 224-328) -/

/-- The hash-bucket key encoder `GetKeyEncoder<string>(GetTypeInfo(UINT32))`:
a bucket number is appended as a 4-byte big-endian unsigned integer
(byte-identical to the C++ `uint32_t` encoding, including wrap at 2^32). -/
def enc32 (n : Nat) : Key :=
  [n / 2 ^ 24 % 256, n / 2 ^ 16 % 256, n / 2 ^ 8 % 256, n % 256]

/-- The surviving buckets of one dimension, in increasing order: the loop
`for bucket in 0..bitset.size, if bitset[bucket]` of lines 289-292. -/
def survivors (bs : List Bool) : List Nat :=
  (List.range bs.length).filter (fun b => bs.getD b false)

/-- One iteration of the cross-product loop of lines 286-301: extend every
range by every surviving bucket of the dimension, appending `bucket` to
the start and `bucket + 1` (when this is the final constrained component
and the range upper bound is empty) or `bucket` to the end. -/
def hashStep (is_last : Bool) (bs : List Bool) :
    List PartitionKeyRange → List PartitionKeyRange
  | [] => []
  | r :: rest =>
    (survivors bs).map
      (fun bucket =>
        ⟨r.start ++ enc32 bucket,
         r.stop ++ enc32 (if is_last then bucket + 1 else bucket)⟩) ++
    hashStep is_last bs rest

/-- Lines 255-270: the index one past the final constrained component.
If either range bound is non-empty the range is the final constraint
(`constrained_index = hash_schema.size()`); otherwise the all-`true`
bitsets are stripped from the right. -/
def constrainedIndex (hash_schema : HashSchema) (range_bounds : RangeBounds) : Nat :=
  if !range_bounds.lower.isEmpty || !range_bounds.upper.isEmpty then
    hash_schema.length
  else
    hash_schema.length -
      (hash_schema.reverse.takeWhile (fun bs => bs.all (fun x => x))).length

/-- Lines 310-325, operating on the list reversed (largest `start` first,
matching the `rbegin..rend` iteration): drop ranges whose `start` is at or
past the scan's exclusive upper bound partition key, clamp the `end` of a
range the bound falls into, and stop at the first range wholly below the
bound.  `pop_back` on the element under a reverse iterator followed by
`++` lands on the new back, which is the recursion on the tail here. -/
def trimToUpperDesc (spu : Key) : List PartitionKeyRange → List PartitionKeyRange
  | [] => []
  | r :: rest =>
    if !r.stop.isEmpty && leKey r.stop spu then r :: rest
    else if leKey spu r.start then trimToUpperDesc spu rest
    else ⟨r.start, spu⟩ :: trimToUpperDesc spu rest

/-- `PartitionPruner::ConstructPartitionKeyRanges` (lines 224-328), with
the per-dimension bucket bitsets already resolved in the `HashSchema`:
cross-product of surviving buckets over the constrained dimensions,
range bounds appended, then trimmed to the scan's exclusive upper bound
partition key.  Returns ranges in ascending order. -/
def ConstructPartitionKeyRanges (scan_spec : ScanSpec) (hash_schema : HashSchema)
    (range_bounds : RangeBounds) : List PartitionKeyRange :=
  let ci := constrainedIndex hash_schema range_bounds
  let afterHash := (List.range ci).foldl
    (fun acc hash_idx =>
      hashStep ((hash_idx + 1 == ci) && range_bounds.upper.isEmpty)
        (hash_schema.getD hash_idx []) acc)
    [⟨[], []⟩]
  let appended := afterHash.map
    (fun r => ⟨r.start ++ range_bounds.lower, r.stop ++ range_bounds.upper⟩)
  if scan_spec.exclusive_upper_bound_partition_key.isEmpty then appended
  else
    (trimToUpperDesc scan_spec.exclusive_upper_bound_partition_key
      appended.reverse).reverse

/-! ## Cursor operations (`partition_pruner.cc` lines 499-553) -/

/-- `PartitionPruner::NumRangesRemaining` (header lines 62-68). -/
def NumRangesRemaining (p : PartitionPruner) : Nat :=
  (p.range_bounds_to_partition_key_ranges.map
    (fun b => b.partition_key_ranges.length)).sum

/-- `PartitionPruner::HasMorePartitionKeyRanges` (line 499-501). -/
def HasMorePartitionKeyRanges (p : PartitionPruner) : Bool :=
  NumRangesRemaining p != 0

/-- `PartitionPruner::NextPartitionKey` (lines 503-506):
`range_bounds_to_partition_key_ranges_.back().partition_key_ranges.back().start`.
The method is `const`, so it cannot modify the cursor.  `none` models
both the fatal `CHECK` when `HasMorePartitionKeyRanges` is false and the
undefined `std::vector::back()` on an empty vector (when the last stored
bucket has no ranges left). -/
def NextPartitionKey (p : PartitionPruner) : Option Key :=
  match p.range_bounds_to_partition_key_ranges.getLast? with
  | none => none
  | some b => b.partition_key_ranges.getLast?.map (fun r => r.start)

/-- The per-bucket loop of `RemovePartitionKeyRange` (lines 516-525),
operating on the reversed stored list (ascending `start`, matching the
`rbegin..rend` iteration): stop at the first range with `upper ≤ start`,
replace `start` by `upper` in a range whose `end` is empty or above
`upper` and continue, and pop a fully consumed range. -/
def removeFromBucketAsc (upper : Key) :
    List PartitionKeyRange → List PartitionKeyRange
  | [] => []
  | r :: rest =>
    if leKey upper r.start then r :: rest
    else if r.stop.isEmpty || ltKey upper r.stop then
      ⟨upper, r.stop⟩ :: removeFromBucketAsc upper rest
    else removeFromBucketAsc upper rest

/-- `PartitionPruner::RemovePartitionKeyRange` (lines 508-527): an empty
upper bound clears the whole cursor; otherwise every bucket's ranges are
trimmed below `upper_bound`. -/
def RemovePartitionKeyRange (p : PartitionPruner) (upper_bound : Key) :
    PartitionPruner :=
  if upper_bound.isEmpty then ⟨[]⟩
  else
    ⟨p.range_bounds_to_partition_key_ranges.map
      (fun b =>
        ⟨b.range_bounds,
         (removeFromBucketAsc upper_bound b.partition_key_ranges.reverse).reverse⟩)⟩

/-- The `std::lower_bound` call of lines 538-545 over the reversed
(ascending) range list: the first range for which the comparator
`scan_range < partition` (that is, `end` non-empty and
`end ≤ partition_key_start`) is false.  `std::lower_bound` returns
exactly this element when the range is partitioned on the comparator,
which holds for the sorted range lists the pruner stores. -/
def lowerBoundRange (P : Partition) :
    List PartitionKeyRange → Option PartitionKeyRange
  | [] => none
  | r :: rest =>
    if !r.stop.isEmpty && leKey r.stop P.partition_key_start then
      lowerBoundRange P rest
    else some r

/-- The body of the `ShouldPrune` loop (lines 530-551) for one bucket:
`true` when the bucket keeps the partition alive (the early
`return false`). -/
def bucketKeepsAlive (P : Partition) (b : RangeBoundsAndPartitionKeyRanges) :
    Bool :=
  if !b.range_bounds.lower.isEmpty && P.range_key_start != b.range_bounds.lower &&
     !b.range_bounds.upper.isEmpty && P.range_key_end != b.range_bounds.upper then
    false
  else
    match lowerBoundRange P b.partition_key_ranges.reverse with
    | none => false
    | some r =>
      !(!P.partition_key_end.isEmpty && leKey P.partition_key_end r.start)

/-- `PartitionPruner::ShouldPrune` (lines 529-553). -/
def ShouldPrune (p : PartitionPruner) (P : Partition) : Bool :=
  !(p.range_bounds_to_partition_key_ranges.any (bucketKeepsAlive P))

/-! ## `Init` (`partition_pruner.cc` lines 330-498) -/

/-- The segment-inclusion test of lines 443-472: whether a custom range
segment overlaps the scan's derived range bounds. -/
def includeSegment (scan_range_lower_bound scan_range_upper_bound : Key)
    (range : RangeWithHashSchema) : Bool :=
  if scan_range_lower_bound.isEmpty && scan_range_upper_bound.isEmpty then true
  else if scan_range_lower_bound.isEmpty then
    ltKey range.lower scan_range_upper_bound
  else if scan_range_upper_bound.isEmpty then
    range.upper.isEmpty || ltKey scan_range_lower_bound range.upper
  else
    (range.upper.isEmpty || ltKey scan_range_lower_bound range.upper) &&
      ltKey range.lower scan_range_upper_bound

/-- The bounds selection of lines 479-482: the segment's own bounds when
the scan derived no range bounds at all, and otherwise the scan's derived
bounds (verbatim — they are not intersected with the segment's bounds). -/
def boundsForSegment (scan_range_lower_bound scan_range_upper_bound : Key)
    (range : RangeWithHashSchema) : RangeBounds :=
  if scan_range_lower_bound.isEmpty && scan_range_upper_bound.isEmpty then
    ⟨range.lower, range.upper⟩
  else ⟨scan_range_lower_bound, scan_range_upper_bound⟩

/-- `PartitionPruner::Init` (lines 330-498).  The derived range bounds
`scan_range_lower_bound` / `scan_range_upper_bound` are the output of
lines 406-425 (`EncodeRangeKeysFromPrimaryKeyBounds` /
`EncodeRangeKeysFromPredicates`), passed in explicitly.  Branch A (no
custom range segments) stores one bucket with default-empty
`range_bounds`; branch B stores one bucket per included segment, in
segment order.  Finally a non-empty scan lower bound partition key is
advanced past. -/
def Init (partition_schema : PartitionSchema) (scan_spec : ScanSpec)
    (scan_range_lower_bound scan_range_upper_bound : Key) : PartitionPruner :=
  if scan_spec.can_short_circuit then ⟨[]⟩
  else
    let buckets :=
      if partition_schema.ranges_with_hash_schemas.isEmpty then
        [⟨⟨[], []⟩,
          (ConstructPartitionKeyRanges scan_spec partition_schema.hash_schema
            ⟨scan_range_lower_bound, scan_range_upper_bound⟩).reverse⟩]
      else
        (partition_schema.ranges_with_hash_schemas.filter
          (includeSegment scan_range_lower_bound scan_range_upper_bound)).map
          (fun range =>
            ⟨⟨range.lower, range.upper⟩,
             (ConstructPartitionKeyRanges scan_spec range.hash_schema
               (boundsForSegment scan_range_lower_bound scan_range_upper_bound
                 range)).reverse⟩)
    let p : PartitionPruner := ⟨buckets⟩
    if scan_spec.lower_bound_partition_key.isEmpty then p
    else RemovePartitionKeyRange p scan_spec.lower_bound_partition_key


/-! ## Well-formedness invariant of the stored cursor

`Init` produces, per bucket, disjoint ranges sorted ascending by `start`
(stored reversed); `RemovePartitionKeyRange` preserves this.  The
invariant is stated on the list in natural (ascending) order. -/

/-- Each stored range is non-degenerate: `start < end`, or `end` = +∞. -/
def wfRange (r : PartitionKeyRange) : Prop :=
  r.stop = [] ∨ ltKey r.start r.stop = true

/-- Two ranges in ascending order are disjoint and ordered: the earlier
one's `end` is finite and at most the later one's `start`. -/
def adjOK (r1 r2 : PartitionKeyRange) : Prop :=
  r1.stop ≠ [] ∧ leKey r1.stop r2.start = true

/-- Well-formedness of a range list in ascending (natural) order. -/
def wfAsc (l : List PartitionKeyRange) : Prop :=
  l.Pairwise adjOK ∧ ∀ r ∈ l, wfRange r

/-- Well-formedness of one stored bucket (its list is stored reversed). -/
def wfBucket (b : RangeBoundsAndPartitionKeyRanges) : Prop :=
  wfAsc b.partition_key_ranges.reverse

/-- Well-formedness of the whole pruner state. -/
def wfPruner (p : PartitionPruner) : Prop :=
  ∀ b ∈ p.range_bounds_to_partition_key_ranges, wfBucket b

/-- Well-formed range bounds: unbounded above, or `lower < upper`
(an empty `lower` is below any non-empty `upper`).  `Init`'s callers
guarantee this: the scan-derived bounds satisfy `lower PK < upper PK`
(comment on lines 333-336) and a catalog range segment's bounds satisfy
`lower < upper`. -/
def wfBounds (rb : RangeBounds) : Prop :=
  rb.upper = [] ∨ ltKey rb.lower rb.upper = true

/-- Every hash dimension's bucket count fits in a `uint32_t` without
`bucket + 1` wrapping: `num_buckets < 2^32`. -/
def wfHashSchema (hs : HashSchema) : Prop :=
  ∀ bs ∈ hs, bs.length < 2 ^ 32

instance (r : PartitionKeyRange) : Decidable (wfRange r) := by
  unfold wfRange; infer_instance

instance (r1 r2 : PartitionKeyRange) : Decidable (adjOK r1 r2) := by
  unfold adjOK; infer_instance

instance (l : List PartitionKeyRange) : Decidable (wfAsc l) := by
  unfold wfAsc; infer_instance

instance (b : RangeBoundsAndPartitionKeyRanges) : Decidable (wfBucket b) := by
  unfold wfBucket; infer_instance

instance (p : PartitionPruner) : Decidable (wfPruner p) := by
  unfold wfPruner; infer_instance

instance (rb : RangeBounds) : Decidable (wfBounds rb) := by
  unfold wfBounds; infer_instance

instance (hs : HashSchema) : Decidable (wfHashSchema hs) := by
  unfold wfHashSchema; infer_instance

/-- Strict ascending order of two ranges' `start` keys. -/
def startLt (r1 r2 : PartitionKeyRange) : Prop :=
  ltKey r1.start r2.start = true

instance (r1 r2 : PartitionKeyRange) : Decidable (startLt r1 r2) := by
  unfold startLt; infer_instance

/-- The invariant of the cross-product working set before the final
constrained dimension: every range has equal `start` and `end` of
uniform length `L` (only whole bucket encodings so far), and the set is
sorted. -/
def crossState (L : Nat) (l : List PartitionKeyRange) : Prop :=
  (∀ r ∈ l, r.start = r.stop ∧ r.start.length = L) ∧ l.Pairwise startLt

/-- The invariant after the final hash dimension has been applied with
the inclusive to exclusive bucket conversion: a well-formed list with
uniform `start` and `end` lengths. -/
def wfCross (L : Nat) (l : List PartitionKeyRange) : Prop :=
  wfAsc l ∧ ∀ r ∈ l, r.start.length = L ∧ r.stop.length = L

/-! ## Claim-side definitions (stated from the specification's words,
for comparison against the definitions translated from the source) -/

/-- The specification's description of `next()`: the `start` of the last
range of the last non-empty `RangeBucket` (the source instead reads the
last bucket unconditionally). -/
def nextPartitionKeySpec (p : PartitionPruner) : Option Key :=
  match (p.range_bounds_to_partition_key_ranges.filter
      (fun b => !b.partition_key_ranges.isEmpty)).getLast? with
  | none => none
  | some b => b.partition_key_ranges.getLast?.map (fun r => r.start)

/-- The specification's description of the `advance_past` bucket loop
(§4.4.4), on the list in ascending order: stop at the first range with
`upper ≤ start`; replace `start` by `upper` in a range whose `end` is
empty or above `upper` **and stop there**; pop a consumed range and
continue.  (The source does not stop after the replacement; on
well-formed lists the next iteration stops immediately, making the two
equal.) -/
def advancePastSpecAsc (upper : Key) :
    List PartitionKeyRange → List PartitionKeyRange
  | [] => []
  | r :: rest =>
    if leKey upper r.start then r :: rest
    else if r.stop.isEmpty || ltKey upper r.stop then ⟨upper, r.stop⟩ :: rest
    else advancePastSpecAsc upper rest

/-- The claim's segment-inclusion predicate (C8), as stated: half-open
overlap with empty = unbounded. -/
def segmentOverlapsScan (scan_range_lower_bound scan_range_upper_bound : Key)
    (seg : RangeWithHashSchema) : Prop :=
  if scan_range_lower_bound = [] ∧ scan_range_upper_bound = [] then True
  else if scan_range_lower_bound = [] then
    ltKey seg.lower scan_range_upper_bound = true
  else if scan_range_upper_bound = [] then
    seg.upper = [] ∨ ltKey scan_range_lower_bound seg.upper = true
  else
    (seg.upper = [] ∨ ltKey scan_range_lower_bound seg.upper = true) ∧
      ltKey seg.lower scan_range_upper_bound = true

instance (srl sru : Key) (seg : RangeWithHashSchema) :
    Decidable (segmentOverlapsScan srl sru seg) := by
  unfold segmentOverlapsScan; infer_instance

/-- The claim's "intersection of the scan's derived range bounds with the
segment's bounds" (C9): componentwise max of lowers and min of uppers,
with empty = unbounded. -/
def intersectBoundsClaim (scan_range_lower_bound scan_range_upper_bound : Key)
    (seg : RangeWithHashSchema) : RangeBounds :=
  ⟨if scan_range_lower_bound = [] then seg.lower
   else if seg.lower = [] then scan_range_lower_bound
   else if ltKey scan_range_lower_bound seg.lower then seg.lower
   else scan_range_lower_bound,
   if scan_range_upper_bound = [] then seg.upper
   else if seg.upper = [] then scan_range_upper_bound
   else if ltKey scan_range_upper_bound seg.upper then scan_range_upper_bound
   else seg.upper⟩

/-! ## `EncodeRangeKeysFromPrimaryKeyBounds` (lines 76-148)

The function projects the scan's primary-key bounds onto the
range-partition prefix.  The schema, the `EncodedKey` raw column values,
`TypeInfo::IsMinValue`, `key_util::IncrementPrimaryKey` and
`key_util::EncodeKey` are external to this repository; they are modelled
from the spec (§3.2, §6) as parameters:

* a primary-key bound is a row of raw column values (one `Nat` per key
  column);
* `is_min_value idx v` is column `idx`'s `TypeInfo::IsMinValue` test;
* `increment_key row` is the lexicographic successor of the row (the
  first `num_range_columns` columns), `none` on overflow
  (`key_util::IncrementPrimaryKey` returning false);
* `encode_key row` is `key_util::EncodeKey` over the row's columns; in
  the `num_range_columns = num_key_columns` case it stands for the
  `EncodedKey`'s stored bytes, which the external contract makes
  byte-identical to re-encoding the full row. -/

/-- Lines 76-148, returning `(range_key_start, range_key_end)` (empty
string = not set, as in the source where the out-parameters start empty). -/
def EncodeRangeKeysFromPrimaryKeyBounds (num_key_columns : Nat)
    (is_min_value : Nat → Nat → Bool)
    (increment_key : List Nat → Option (List Nat))
    (encode_key : List Nat → Key)
    (num_range_columns : Nat)
    (lower_bound_key exclusive_upper_bound_key : Option (List Nat)) :
    Key × Key :=
  match lower_bound_key, exclusive_upper_bound_key with
  | none, none => ([], [])
  | _, _ =>
    if num_range_columns = num_key_columns then
      (match lower_bound_key with
       | none => []
       | some row => encode_key row,
       match exclusive_upper_bound_key with
       | none => []
       | some row => encode_key row)
    else
      (match lower_bound_key with
       | none => []
       | some row => encode_key (row.take num_range_columns),
       match exclusive_upper_bound_key with
       | none => []
       | some row =>
         if (List.range' num_range_columns
             (num_key_columns - num_range_columns)).all
           (fun idx => is_min_value idx (row.getD idx 0)) then
           encode_key (row.take num_range_columns)
         else
           match increment_key (row.take num_range_columns) with
           | none => []
           | some row2 => encode_key row2)

/-! ## Order lemmas for `ltKey` / `leKey` -/

theorem ltKey_irrefl (a : Key) : ltKey a a = false := by
  induction a with
  | nil => rfl
  | cons x xs ih => simp [ltKey, ih]

theorem leKey_refl (a : Key) : leKey a a = true := by
  simp [leKey, ltKey_irrefl]

theorem ltKey_trichotomy (a b : Key) :
    ltKey a b = true ∨ a = b ∨ ltKey b a = true := by
  induction a generalizing b with
  | nil => cases b with
    | nil => exact Or.inr (Or.inl rfl)
    | cons y ys => exact Or.inl rfl
  | cons x xs ih =>
    cases b with
    | nil => exact Or.inr (Or.inr rfl)
    | cons y ys =>
      rcases Nat.lt_trichotomy x y with hxy | hxy | hxy
      · left
        simp [ltKey, hxy]
      · subst hxy
        rcases ih ys with h | h | h
        · left; simp [ltKey, h]
        · subst h; exact Or.inr (Or.inl rfl)
        · right; right; simp [ltKey, h]
      · right; right
        simp [ltKey, hxy]

theorem ltKey_trans {a b c : Key} (h1 : ltKey a b = true) (h2 : ltKey b c = true) :
    ltKey a c = true := by
  induction a generalizing b c with
  | nil =>
    cases b with
    | nil => simp [ltKey] at h1
    | cons y ys =>
      cases c with
      | nil => simp [ltKey] at h2
      | cons z zs => rfl
  | cons x xs ih =>
    cases b with
    | nil => simp [ltKey] at h1
    | cons y ys =>
      cases c with
      | nil => simp [ltKey] at h2
      | cons z zs =>
        simp only [ltKey, Bool.or_eq_true, Bool.and_eq_true, beq_iff_eq,
          decide_eq_true_eq] at h1 h2 ⊢
        rcases h1 with h1 | ⟨rfl, h1⟩
        · rcases h2 with h2 | ⟨rfl, h2⟩
          · left; omega
          · left; exact h1
        · rcases h2 with h2 | ⟨rfl, h2⟩
          · left; exact h2
          · exact Or.inr ⟨rfl, ih h1 h2⟩

theorem ltKey_asymm {a b : Key} (h : ltKey a b = true) : ltKey b a = false := by
  cases hba : ltKey b a with
  | false => rfl
  | true =>
    have := ltKey_trans h hba
    rw [ltKey_irrefl] at this
    exact absurd this (by simp)

theorem ltKey_total {a b : Key} (h : ltKey a b = false) : a = b ∨ ltKey b a = true := by
  rcases ltKey_trichotomy a b with h1 | h1 | h1
  · rw [h1] at h; exact absurd h (by simp)
  · exact Or.inl h1
  · exact Or.inr h1

theorem leKey_iff {a b : Key} : leKey a b = true ↔ a = b ∨ ltKey a b = true := by
  constructor
  · intro h
    have : ltKey b a = false := by simpa [leKey] using h
    rcases ltKey_total this with rfl | h2
    · exact Or.inl rfl
    · exact Or.inr h2
  · rintro (rfl | h)
    · exact leKey_refl a
    · simp [leKey, ltKey_asymm h]

theorem ltKey_of_leKey_of_ltKey {a b c : Key} (h1 : leKey a b = true)
    (h2 : ltKey b c = true) : ltKey a c = true := by
  rcases leKey_iff.mp h1 with rfl | h1
  · exact h2
  · exact ltKey_trans h1 h2

theorem ltKey_of_ltKey_of_leKey {a b c : Key} (h1 : ltKey a b = true)
    (h2 : leKey b c = true) : ltKey a c = true := by
  rcases leKey_iff.mp h2 with rfl | h2
  · exact h1
  · exact ltKey_trans h1 h2

theorem leKey_trans {a b c : Key} (h1 : leKey a b = true) (h2 : leKey b c = true) :
    leKey a c = true := by
  rcases leKey_iff.mp h1 with rfl | h1
  · exact h2
  · exact leKey_iff.mpr (Or.inr (ltKey_of_ltKey_of_leKey h1 h2))

theorem leKey_of_ltKey {a b : Key} (h : ltKey a b = true) : leKey a b = true :=
  leKey_iff.mpr (Or.inr h)

/-- A string is strictly less than any proper extension of itself. -/
theorem ltKey_append_of_ne_nil (l : Key) {m : Key} (hm : m ≠ []) :
    ltKey l (l ++ m) = true := by
  induction l with
  | nil =>
    cases m with
    | nil => exact absurd rfl hm
    | cons y ys => rfl
  | cons x xs ih => simp [ltKey, ih]

/-- A string is at most any extension of itself. -/
theorem leKey_append (l m : Key) : leKey l (l ++ m) = true := by
  cases m with
  | nil => simpa using leKey_refl l
  | cons y ys => exact leKey_of_ltKey (ltKey_append_of_ne_nil l (by simp))

/-- Comparison after a shared prefix reduces to comparison of the tails. -/
theorem ltKey_append_left (c a b : Key) : ltKey (c ++ a) (c ++ b) = ltKey a b := by
  induction c with
  | nil => rfl
  | cons x xs ih => simp [ltKey, ih]

/-- If two strings of equal length compare strictly, any extensions of
them compare the same way (the divergence is inside the common length). -/
theorem ltKey_append_of_ltKey_of_length_eq {a b : Key} (hlen : a.length = b.length)
    (h : ltKey a b = true) (s t : Key) : ltKey (a ++ s) (b ++ t) = true := by
  induction a generalizing b with
  | nil =>
    cases b with
    | nil => simp [ltKey_irrefl] at h
    | cons y ys => simp at hlen
  | cons x xs ih =>
    cases b with
    | nil => simp [ltKey] at h
    | cons y ys =>
      simp only [List.length_cons, Nat.succ_inj] at hlen
      simp only [ltKey, Bool.or_eq_true, Bool.and_eq_true, beq_iff_eq,
        decide_eq_true_eq] at h ⊢
      rcases h with h | ⟨rfl, h⟩
      · exact Or.inl h
      · exact Or.inr ⟨rfl, ih hlen h⟩

/-- If two strings of equal length satisfy `a ≤ b`, then `a ≤ b ++ t`. -/
theorem leKey_append_of_leKey_of_length_eq {a b : Key} (hlen : a.length = b.length)
    (h : leKey a b = true) (t : Key) : leKey a (b ++ t) = true := by
  rcases leKey_iff.mp h with rfl | h
  · exact leKey_append a t
  · exact leKey_of_ltKey (by
      have := ltKey_append_of_ltKey_of_length_eq hlen h [] t
      simpa using this)

/-! ## Basic cursor lemmas -/

theorem getLast?_mem {α : Type} : ∀ {l : List α} {a : α}, l.getLast? = some a → a ∈ l
  | [], _, h => by simp at h
  | [x], a, h => by simp at h; simp [h]
  | x :: y :: t, a, h => by
    rw [List.getLast?_cons_cons] at h
    exact List.mem_cons_of_mem x (getLast?_mem h)

theorem sum_lengths_eq_zero :
    ∀ (l : List RangeBoundsAndPartitionKeyRanges),
      (l.map (fun b => b.partition_key_ranges.length)).sum = 0 →
      ∀ b ∈ l, b.partition_key_ranges = []
  | [], _, b, hb => by simp at hb
  | x :: xs, h, b, hb => by
    simp only [List.map_cons, List.sum_cons, Nat.add_eq_zero] at h
    rcases List.mem_cons.mp hb with rfl | hb2
    · exact List.length_eq_zero.mp h.1
    · exact sum_lengths_eq_zero xs h.2 b hb2

theorem numRanges_zero {p : PartitionPruner} (h : NumRangesRemaining p = 0) :
    ∀ b ∈ p.range_bounds_to_partition_key_ranges, b.partition_key_ranges = [] :=
  sum_lengths_eq_zero _ h

theorem hasMore_false_all_empty {p : PartitionPruner}
    (h : HasMorePartitionKeyRanges p = false) :
    ∀ b ∈ p.range_bounds_to_partition_key_ranges, b.partition_key_ranges = [] := by
  apply numRanges_zero
  simpa [HasMorePartitionKeyRanges] using h

/-- `lowerBoundRange` is the first range (in the given order) whose `end`
is empty or strictly above the partition's `partition_key_start`. -/
theorem lowerBoundRange_eq_find (P : Partition) (l : List PartitionKeyRange) :
    lowerBoundRange P l =
      l.find? (fun r => r.stop.isEmpty || ltKey P.partition_key_start r.stop) := by
  induction l with
  | nil => rfl
  | cons r rest ih =>
    show lowerBoundRange P (r :: rest) = _
    rw [List.find?_cons]
    unfold lowerBoundRange
    rcases hstop : r.stop.isEmpty with _ | _ <;>
      rcases hlt : ltKey P.partition_key_start r.stop with _ | _ <;>
        simp [hstop, hlt, leKey, ih]

/-! ## C10: an empty cursor prunes every partition -/

/-- C10: for every pruner state with an empty cursor
(`NumRangesRemaining() = 0`, e.g. after init of a short-circuit scan or
after `advance_past` of an empty key), `should_prune(P)` returns true for
every partition `P`. -/
theorem c10_empty_cursor_prunes_all (p : PartitionPruner)
    (h : NumRangesRemaining p = 0) (P : Partition) : ShouldPrune p P = true := by
  have hall := numRanges_zero h
  unfold ShouldPrune
  rw [Bool.not_eq_true', List.any_eq_false]
  intro b hb
  have hempty := hall b hb
  have hfalse : bucketKeepsAlive P b = false := by
    unfold bucketKeepsAlive
    rw [hempty]
    split
    · rfl
    · simp [lowerBoundRange]
  simp [hfalse]

/-- C10 witness: a pruner with one bucket whose ranges are consumed. -/
theorem c10_witness :
    NumRangesRemaining ⟨[⟨⟨[1], [2]⟩, []⟩]⟩ = 0 ∧
    ShouldPrune ⟨[⟨⟨[1], [2]⟩, []⟩]⟩ ⟨[1], [2], [], []⟩ = true :=
  ⟨by decide, c10_empty_cursor_prunes_all ⟨[⟨⟨[1], [2]⟩, []⟩]⟩ (by decide)
    ⟨[1], [2], [], []⟩⟩

/-! ## C4: characterization of `ShouldPrune` -/

theorem bucketKeepsAlive_false_iff (P : Partition)
    (b : RangeBoundsAndPartitionKeyRanges) :
    bucketKeepsAlive P b = false ↔
      (b.range_bounds.lower ≠ [] ∧ P.range_key_start ≠ b.range_bounds.lower ∧
       b.range_bounds.upper ≠ [] ∧ P.range_key_end ≠ b.range_bounds.upper) ∨
      ∀ r, lowerBoundRange P b.partition_key_ranges.reverse = some r →
        ¬(P.partition_key_end = [] ∨ ltKey r.start P.partition_key_end = true) := by
  have hskipBool : (!b.range_bounds.lower.isEmpty &&
      P.range_key_start != b.range_bounds.lower &&
      !b.range_bounds.upper.isEmpty &&
      P.range_key_end != b.range_bounds.upper) = true ↔
      (b.range_bounds.lower ≠ [] ∧ P.range_key_start ≠ b.range_bounds.lower ∧
       b.range_bounds.upper ≠ [] ∧ P.range_key_end ≠ b.range_bounds.upper) := by
    simp only [Bool.and_eq_true, Bool.not_eq_true', List.isEmpty_eq_false,
      bne_iff_ne]
    tauto
  unfold bucketKeepsAlive
  by_cases hskip : (b.range_bounds.lower ≠ [] ∧
      P.range_key_start ≠ b.range_bounds.lower ∧
      b.range_bounds.upper ≠ [] ∧ P.range_key_end ≠ b.range_bounds.upper)
  · rw [if_pos (hskipBool.mpr hskip)]
    simp [hskip]
  · rw [if_neg (fun h => hskip (hskipBool.mp h))]
    simp only [hskip, false_or]
    rcases hfind : lowerBoundRange P b.partition_key_ranges.reverse with _ | r
    · simp
    · constructor
      · intro hb r2 hr2
        injection hr2 with hr2
        subst hr2
        have halive : (!P.partition_key_end.isEmpty &&
            leKey P.partition_key_end r.start) = true := by
          simpa using hb
        rw [Bool.and_eq_true] at halive
        obtain ⟨h1, h2⟩ := halive
        rintro (hpke | hlt)
        · rw [hpke] at h1
          exact absurd h1 (by simp)
        · have h3 : ltKey r.start P.partition_key_end = false := by
            have h4 : (!ltKey r.start P.partition_key_end) = true := h2
            simpa using h4
          rw [hlt] at h3
          cases h3
      · intro hall
        have hr := hall r rfl
        push_neg at hr
        obtain ⟨h1, h2⟩ := hr
        have h1b : P.partition_key_end.isEmpty = false := by
          simpa [List.isEmpty_eq_false] using h1
        have h2b : leKey P.partition_key_end r.start = true := by
          unfold leKey
          simp [h2]
        simp [h1b, h2b]

/-- C4: `should_prune(P)` returns true iff no surviving range intersects
`P`: a bucket is skipped exactly when BOTH its `range_bounds.lower` is
non-empty and differs from `P.range_key_start` AND its
`range_bounds.upper` is non-empty and differs from `P.range_key_end`
(logical AND, not OR); a non-skipped bucket keeps `P` alive iff the
search finds a range whose `end` is empty or strictly greater than
`P.partition_key_start` and `P.partition_key_end` is empty or greater
than that range's `start`. -/
theorem c4_should_prune_iff (p : PartitionPruner) (P : Partition) :
    ShouldPrune p P = true ↔
      ∀ b ∈ p.range_bounds_to_partition_key_ranges,
        (b.range_bounds.lower ≠ [] ∧ P.range_key_start ≠ b.range_bounds.lower ∧
         b.range_bounds.upper ≠ [] ∧ P.range_key_end ≠ b.range_bounds.upper) ∨
        ∀ r, b.partition_key_ranges.reverse.find?
            (fun r => r.stop.isEmpty || ltKey P.partition_key_start r.stop) = some r →
          ¬(P.partition_key_end = [] ∨ ltKey r.start P.partition_key_end = true) := by
  unfold ShouldPrune
  rw [Bool.not_eq_true', List.any_eq_false]
  apply forall_congr'
  intro b
  constructor
  · intro h hb
    rw [← lowerBoundRange_eq_find]
    exact (bucketKeepsAlive_false_iff P b).mp (by simpa using h hb)
  · intro h hb
    rw [← lowerBoundRange_eq_find] at h
    simpa using (bucketKeepsAlive_false_iff P b).mpr (h hb)

/-- C4 witness: the characterization applied to a concrete state: a
one-bucket cursor whose single range does not reach the partition. -/
theorem c4_witness :
    ShouldPrune ⟨[⟨⟨[], []⟩, [⟨[1], [3]⟩]⟩]⟩ ⟨[], [], [4], []⟩ = true :=
  (c4_should_prune_iff ⟨[⟨⟨[], []⟩, [⟨[1], [3]⟩]⟩]⟩ ⟨[], [], [4], []⟩).mpr
    (by decide)

/-! ## C1: `NextPartitionKey` -/

/-- C1, counterexample: a reachable state (built by `Init` from two
custom range segments, the second emptied by the scan's exclusive upper
bound partition key) in which `has_more()` is true but `next()` reads
`back()` of the last bucket's **empty** range vector (undefined
behaviour, modelled `none`) instead of the last range of the last
non-empty bucket as the claim states. -/
theorem c1_counterexample :
    HasMorePartitionKeyRanges
        (Init ⟨[], [⟨[1], [2], []⟩, ⟨[2], [3], []⟩]⟩ ⟨false, [], [2]⟩ [] []) = true ∧
    NextPartitionKey
        (Init ⟨[], [⟨[1], [2], []⟩, ⟨[2], [3], []⟩]⟩ ⟨false, [], [2]⟩ [] []) = none ∧
    nextPartitionKeySpec
        (Init ⟨[], [⟨[1], [2], []⟩, ⟨[2], [3], []⟩]⟩ ⟨false, [], [2]⟩ [] []) ≠ none := by
  refine ⟨by decide, by decide, by decide⟩

/-- C1 (amended): `next()` reads the last stored `RangeBucket`; when that
bucket is non-empty it returns the `start` of the bucket's last stored
range (and, being a `const` method — modelled as a pure function — does
not modify the cursor); when `has_more()` is false the `CHECK` fires
(modelled `none`), and when the last bucket is empty despite
`has_more()` the access is undefined (also modelled `none`). -/
theorem c1_next_partition_key (p : PartitionPruner) :
    (HasMorePartitionKeyRanges p = false → NextPartitionKey p = none) ∧
    (∀ b r, p.range_bounds_to_partition_key_ranges.getLast? = some b →
      b.partition_key_ranges.getLast? = some r →
      NextPartitionKey p = some r.start) := by
  constructor
  · intro h
    unfold NextPartitionKey
    rcases hlast : p.range_bounds_to_partition_key_ranges.getLast? with _ | b
    · rfl
    · have hb := getLast?_mem hlast
      simp [hasMore_false_all_empty h b hb]
  · intro b r h1 h2
    unfold NextPartitionKey
    rw [h1]
    simp [h2]

/-- C1 witness: the amended theorem applied to a concrete one-bucket
state. -/
theorem c1_witness :
    NextPartitionKey ⟨[⟨⟨[], []⟩, [⟨[1], [2]⟩]⟩]⟩ = some [1] :=
  (c1_next_partition_key ⟨[⟨⟨[], []⟩, [⟨[1], [2]⟩]⟩]⟩).2 _ _ rfl rfl

/-! ## C6: `RemovePartitionKeyRange` -/

/-- On a well-formed (sorted, disjoint) ascending list, the source's
bucket loop — which does not break after replacing a `start` — equals
the specification's loop, which stops there: the very next iteration of
the source's loop hits `upper ≤ start` and breaks. -/
theorem removeFromBucketAsc_eq_spec (u : Key) :
    ∀ {l : List PartitionKeyRange}, wfAsc l →
      removeFromBucketAsc u l = advancePastSpecAsc u l
  | [], _ => rfl
  | r :: rest, h => by
    obtain ⟨hpw, hwf⟩ := h
    unfold removeFromBucketAsc advancePastSpecAsc
    by_cases h1 : leKey u r.start = true
    · rw [if_pos h1, if_pos h1]
    · rw [if_neg h1, if_neg h1]
      by_cases h2 : (r.stop.isEmpty || ltKey u r.stop) = true
      · rw [if_pos h2, if_pos h2]
        congr 1
        cases rest with
        | nil => rfl
        | cons r2 rest2 =>
          have hadj : adjOK r r2 := (List.pairwise_cons.mp hpw).1 r2 (by simp)
          have hstop : r.stop ≠ [] := hadj.1
          have hlt : ltKey u r.stop = true := by
            rcases Bool.or_eq_true_iff.mp h2 with h3 | h3
            · exact absurd (List.isEmpty_iff.mp h3) hstop
            · exact h3
          have hle : leKey u r2.start = true :=
            leKey_of_ltKey (ltKey_of_ltKey_of_leKey hlt hadj.2)
          unfold removeFromBucketAsc
          rw [if_pos hle]
      · rw [if_neg h2, if_neg h2]
        exact removeFromBucketAsc_eq_spec u
          ⟨(List.pairwise_cons.mp hpw).2, fun r2 hr2 => hwf r2 (by simp [hr2])⟩

/-- C6: `advance_past(upper)` with empty `upper` clears the entire
cursor; with non-empty `upper`, on well-formed states (as `Init`
produces and `RemovePartitionKeyRange` preserves) it processes each
bucket's ranges from smallest `start` upward — a range with
`upper ≤ start` stops the bucket's processing, a range with `end` empty
or `upper < end` has its `start` replaced by `upper` and processing
stops there, and any other range is removed; no bucket's ranges are
otherwise modified. -/
theorem c6_advance_past (p : PartitionPruner) (u : Key) :
    (RemovePartitionKeyRange p [] = ⟨[]⟩) ∧
    (u ≠ [] → wfPruner p →
      RemovePartitionKeyRange p u =
        ⟨p.range_bounds_to_partition_key_ranges.map
          (fun b => ⟨b.range_bounds,
            (advancePastSpecAsc u b.partition_key_ranges.reverse).reverse⟩)⟩) := by
  constructor
  · rfl
  · intro hu hwfp
    unfold RemovePartitionKeyRange
    rw [if_neg (by simp [hu])]
    congr 1
    apply List.map_congr_left
    intro b hb
    rw [removeFromBucketAsc_eq_spec u (hwfp b hb)]

/-- C6 witness: the clearing case and the trimming case applied to a
concrete well-formed two-range bucket. -/
theorem c6_witness :
    RemovePartitionKeyRange ⟨[⟨⟨[], []⟩, [⟨[5], [9]⟩, ⟨[1], [3]⟩]⟩]⟩ [2] =
      ⟨([⟨⟨[], []⟩, [⟨[5], [9]⟩, ⟨[1], [3]⟩]⟩] :
          List RangeBoundsAndPartitionKeyRanges).map
        (fun b => ⟨b.range_bounds,
          (advancePastSpecAsc [2] b.partition_key_ranges.reverse).reverse⟩)⟩ ∧
    RemovePartitionKeyRange ⟨[⟨⟨[], []⟩, [⟨[5], [9]⟩, ⟨[1], [3]⟩]⟩]⟩ [] = ⟨[]⟩ :=
  ⟨(c6_advance_past ⟨[⟨⟨[], []⟩, [⟨[5], [9]⟩, ⟨[1], [3]⟩]⟩]⟩ [2]).2
      (by decide) (by decide),
    (c6_advance_past ⟨[⟨⟨[], []⟩, [⟨[5], [9]⟩, ⟨[1], [3]⟩]⟩]⟩ []).1⟩

/-! ## C8: segment inclusion in `Init` -/

theorem includeSegment_iff (srl sru : Key) (seg : RangeWithHashSchema) :
    includeSegment srl sru seg = true ↔ segmentOverlapsScan srl sru seg := by
  by_cases h1 : srl = [] <;> by_cases h2 : sru = [] <;>
    simp [includeSegment, segmentOverlapsScan, h1, h2,
      List.isEmpty_eq_false.mpr, List.isEmpty_iff]

/-- C8: in init with custom range segments, a segment `(seg_lower,
seg_upper)` is included iff: both scan range bounds empty → always; scan
lower empty and scan upper non-empty → `range_upper > seg_lower`; scan
upper empty and scan lower non-empty → `seg_upper` empty or
`range_lower < seg_upper`; both non-empty → (`seg_upper` empty or
`range_lower < seg_upper`) and `range_upper > seg_lower`; and the
included buckets appear in the segments' order. -/
theorem c8_segment_inclusion (ps : PartitionSchema) (ss : ScanSpec)
    (srl sru : Key) (hsc : ss.can_short_circuit = false)
    (hseg : ps.ranges_with_hash_schemas ≠ []) :
    (Init ps ss srl sru).range_bounds_to_partition_key_ranges.map
        (fun b => b.range_bounds) =
      (ps.ranges_with_hash_schemas.filter
        (fun seg => decide (segmentOverlapsScan srl sru seg))).map
        (fun seg => (⟨seg.lower, seg.upper⟩ : RangeBounds)) := by
  have hfilter : ps.ranges_with_hash_schemas.filter (includeSegment srl sru) =
      ps.ranges_with_hash_schemas.filter
        (fun seg => decide (segmentOverlapsScan srl sru seg)) := by
    apply List.filter_congr
    intro seg _
    rw [Bool.eq_iff_iff, decide_eq_true_eq]
    exact includeSegment_iff srl sru seg
  unfold Init
  rw [hsc]
  simp only [Bool.false_eq_true, if_false]
  rw [List.isEmpty_eq_false.mpr hseg]
  simp only [Bool.false_eq_true, if_false]
  rcases hlb : ss.lower_bound_partition_key.isEmpty with _ | _
  · simp only [Bool.false_eq_true, if_false]
    unfold RemovePartitionKeyRange
    rw [hlb]
    simp only [Bool.false_eq_true, if_false]
    rw [← hfilter]
    simp [List.map_map, Function.comp]
  · simp only [if_true]
    rw [← hfilter]
    simp [List.map_map, Function.comp]

/-- C8 witness: inclusion with one overlapping segment and no scan range
bounds. -/
theorem c8_witness :
    (Init ⟨[], [⟨[1], [2], []⟩]⟩ ⟨false, [], []⟩ [] []
        ).range_bounds_to_partition_key_ranges.map (fun b => b.range_bounds) =
      (([⟨[1], [2], []⟩] : List RangeWithHashSchema).filter
        (fun seg => decide (segmentOverlapsScan [] [] seg))).map
        (fun seg => (⟨seg.lower, seg.upper⟩ : RangeBounds)) :=
  c8_segment_inclusion ⟨[], [⟨[1], [2], []⟩]⟩ ⟨false, [], []⟩ [] [] rfl
    (by decide)

/-! ## C9: bounds used for an included segment -/

/-- C9, counterexample: scan bounds `([1], +∞)` against the single
segment `([2], [5])`: the segment is included, and its ranges are built
from the scan bounds verbatim — `[⟨[1], []⟩]` — not from the claim's
intersection `([2], [5])` of the scan bounds with the segment bounds,
which would give `[⟨[2], [5]⟩]`. -/
theorem c9_counterexample :
    (Init ⟨[], [⟨[2], [5], []⟩]⟩ ⟨false, [], []⟩ [1]
        []).range_bounds_to_partition_key_ranges =
      [⟨⟨[2], [5]⟩, [⟨[1], []⟩]⟩] ∧
    (ConstructPartitionKeyRanges ⟨false, [], []⟩ []
        (intersectBoundsClaim [1] [] ⟨[2], [5], []⟩)).reverse =
      [⟨[2], [5]⟩] ∧
    ([⟨[1], []⟩] : List PartitionKeyRange) ≠ [⟨[2], [5]⟩] :=
  ⟨by decide, by decide, by decide⟩

/-- C9 (amended): for every included custom range segment, init builds
that segment's partition-key ranges using the segment's own hash schema,
with range bounds equal to the scan's derived range bounds **verbatim**
whenever the scan has at least one explicit range bound, and equal to
the segment's own bounds when the scan has none. -/
theorem c9_bounds_choice (ps : PartitionSchema) (ss : ScanSpec)
    (srl sru : Key) (hsc : ss.can_short_circuit = false)
    (hseg : ps.ranges_with_hash_schemas ≠ [])
    (hlb : ss.lower_bound_partition_key = []) :
    (Init ps ss srl sru).range_bounds_to_partition_key_ranges =
      (ps.ranges_with_hash_schemas.filter (includeSegment srl sru)).map
        (fun seg => ⟨⟨seg.lower, seg.upper⟩,
          (ConstructPartitionKeyRanges ss seg.hash_schema
            (if srl = [] ∧ sru = [] then ⟨seg.lower, seg.upper⟩
             else ⟨srl, sru⟩)).reverse⟩) := by
  unfold Init
  rw [hsc]
  simp only [Bool.false_eq_true, if_false]
  rw [List.isEmpty_eq_false.mpr hseg]
  simp only [Bool.false_eq_true, if_false]
  rw [hlb]
  simp only [List.isEmpty_nil, if_true]
  apply List.map_congr_left
  intro seg _
  have hbs : boundsForSegment srl sru seg =
      (if srl = [] ∧ sru = [] then (⟨seg.lower, seg.upper⟩ : RangeBounds)
       else ⟨srl, sru⟩) := by
    unfold boundsForSegment
    by_cases h1 : srl = [] <;> by_cases h2 : sru = [] <;>
      simp [h1, h2, List.isEmpty_iff, List.isEmpty_eq_false.mpr]
  rw [hbs]

/-- C9 witness: the amended bounds choice at the counterexample input. -/
theorem c9_witness :
    (Init ⟨[], [⟨[2], [5], []⟩]⟩ ⟨false, [], []⟩ [1]
        []).range_bounds_to_partition_key_ranges =
      (([⟨[2], [5], []⟩] : List RangeWithHashSchema).filter
        (includeSegment [1] [])).map
        (fun seg => ⟨⟨seg.lower, seg.upper⟩,
          (ConstructPartitionKeyRanges ⟨false, [], []⟩ seg.hash_schema
            (if ([1] : Key) = [] ∧ ([] : Key) = [] then ⟨seg.lower, seg.upper⟩
             else ⟨[1], []⟩)).reverse⟩) :=
  c9_bounds_choice ⟨[], [⟨[2], [5], []⟩]⟩ ⟨false, [], []⟩ [1] [] rfl
    (by decide) rfl

/-! ## C7: range upper bound from the primary-key upper bound -/

/-- C7: when the range columns are a proper prefix of the primary key
and the scan has an exclusive-upper PK bound, the derived `range_upper`
equals the encoding of the first `k` PK columns verbatim if every PK
column beyond the range prefix holds its type's minimum value; otherwise
it equals the encoding of the lexicographically incremented `k`-column
prefix; and if that increment overflows, `range_upper` is left empty
(unbounded). -/
theorem c7_range_upper (num_key_columns : Nat)
    (is_min_value : Nat → Nat → Bool)
    (increment_key : List Nat → Option (List Nat))
    (encode_key : List Nat → Key) (num_range_columns : Nat)
    (lower_bound_key : Option (List Nat)) (row : List Nat)
    (hk : num_range_columns < num_key_columns) :
    ((∀ idx, num_range_columns ≤ idx → idx < num_key_columns →
        is_min_value idx (row.getD idx 0) = true) →
      (EncodeRangeKeysFromPrimaryKeyBounds num_key_columns is_min_value
        increment_key encode_key num_range_columns lower_bound_key
        (some row)).2 = encode_key (row.take num_range_columns)) ∧
    (¬(∀ idx, num_range_columns ≤ idx → idx < num_key_columns →
        is_min_value idx (row.getD idx 0) = true) →
      (∀ row2, increment_key (row.take num_range_columns) = some row2 →
        (EncodeRangeKeysFromPrimaryKeyBounds num_key_columns is_min_value
          increment_key encode_key num_range_columns lower_bound_key
          (some row)).2 = encode_key row2) ∧
      (increment_key (row.take num_range_columns) = none →
        (EncodeRangeKeysFromPrimaryKeyBounds num_key_columns is_min_value
          increment_key encode_key num_range_columns lower_bound_key
          (some row)).2 = [])) := by
  have hmin : ((List.range' num_range_columns
        (num_key_columns - num_range_columns)).all
      (fun idx => is_min_value idx (row.getD idx 0))) = true ↔
      (∀ idx, num_range_columns ≤ idx → idx < num_key_columns →
        is_min_value idx (row.getD idx 0) = true) := by
    rw [List.all_eq_true]
    constructor
    · intro h idx h1 h2
      exact h idx (List.mem_range'_1.mpr ⟨h1, by omega⟩)
    · intro h idx hidx
      obtain ⟨h1, h2⟩ := List.mem_range'_1.mp hidx
      exact h idx h1 (by omega)
  have hne : num_range_columns ≠ num_key_columns := Nat.ne_of_lt hk
  unfold EncodeRangeKeysFromPrimaryKeyBounds
  cases lower_bound_key with
  | none =>
    simp only [hne, if_false]
    refine ⟨fun hall => ?_, fun hnall => ⟨fun row2 hrow2 => ?_, fun hnone => ?_⟩⟩
    · rw [if_pos (hmin.mpr hall)]
    · rw [if_neg (fun h => hnall (hmin.mp h)), hrow2]
    · rw [if_neg (fun h => hnall (hmin.mp h)), hnone]
  | some lrow =>
    simp only [hne, if_false]
    refine ⟨fun hall => ?_, fun hnall => ⟨fun row2 hrow2 => ?_, fun hnone => ?_⟩⟩
    · rw [if_pos (hmin.mpr hall)]
    · rw [if_neg (fun h => hnall (hmin.mp h)), hrow2]
    · rw [if_neg (fun h => hnall (hmin.mp h)), hnone]

/-- C7 witness: two key columns, one range column; the upper-bound row
`[3, 0]` has a minimal suffix, so the prefix `[3]` is used verbatim. -/
theorem c7_witness :
    (EncodeRangeKeysFromPrimaryKeyBounds 2 (fun _ v => v == 0)
      (fun _ => none) (fun l => l) 1 none (some [3, 0])).2 = [3] :=
  (c7_range_upper 2 (fun _ v => v == 0) (fun _ => none) (fun l => l) 1
    none [3, 0] (by omega)).1
    (fun idx h1 h2 => by
      have h3 : idx = 1 := by omega
      subst h3
      rfl)

/-! ## C5: the cross-product enumeration -/

theorem enc32_length (n : Nat) : (enc32 n).length = 4 := rfl

/-- 4-byte big-endian encoding is strictly monotone below `2^32`. -/
theorem ltKey_enc32 {m n : Nat} (h : m < n) (hn : n < 2 ^ 32) :
    ltKey (enc32 m) (enc32 n) = true := by
  have e1 : ∀ x : Nat, x / 2 ^ 24 = x / 256 / 256 / 256 := fun x => by
    rw [Nat.div_div_eq_div_mul, Nat.div_div_eq_div_mul]
    norm_num
  have e2 : ∀ x : Nat, x / 2 ^ 16 = x / 256 / 256 := fun x => by
    rw [Nat.div_div_eq_div_mul]
    norm_num
  simp only [enc32, ltKey, Bool.or_eq_true, Bool.and_eq_true, beq_iff_eq,
    decide_eq_true_eq, e1, e2]
  omega

theorem mem_survivors {bs : List Bool} {b : Nat} :
    b ∈ survivors bs ↔ b < bs.length ∧ bs.getD b false = true := by
  simp [survivors, List.mem_filter, List.mem_range]

theorem mem_hashStep (isL : Bool) (bs : List Bool) :
    ∀ (ranges : List PartitionKeyRange) (q : PartitionKeyRange),
      q ∈ hashStep isL bs ranges ↔
        ∃ r ∈ ranges, ∃ b ∈ survivors bs,
          q = ⟨r.start ++ enc32 b, r.stop ++ enc32 (if isL then b + 1 else b)⟩
  | [], q => by simp [hashStep]
  | r :: rest, q => by
    simp only [hashStep, List.mem_append, List.mem_map, mem_hashStep isL bs rest,
      List.mem_cons]
    constructor
    · rintro (⟨b, hb, rfl⟩ | ⟨r2, hr2, b, hb, rfl⟩)
      · exact ⟨r, Or.inl rfl, b, hb, rfl⟩
      · exact ⟨r2, Or.inr hr2, b, hb, rfl⟩
    · rintro ⟨r2, hr2 | hr2, b, hb, rfl⟩
      · subst hr2
        exact Or.inl ⟨b, hb, rfl⟩
      · exact Or.inr ⟨r2, hr2, b, hb, rfl⟩

/-- C5: in the cross-product enumeration of
`ConstructPartitionKeyRanges`, for every hash dimension index `i < C`
and surviving bucket `b`, the value appended to a range's end is `b + 1`
exactly when `i = C − 1` and the range upper bound is empty, and `b`
otherwise, with the prior components of the end unchanged (no carry);
and the emitted exclusive upper `enc32 num_buckets` compares greater
than any key extending `enc32 (num_buckets − 1)`. -/
theorem c5_cross_product (hash_schema : HashSchema)
    (range_bounds : RangeBounds) (i : Nat)
    (hi : i < constrainedIndex hash_schema range_bounds)
    (ranges : List PartitionKeyRange) (q : PartitionKeyRange) :
    (q ∈ hashStep
        ((i + 1 == constrainedIndex hash_schema range_bounds) &&
          range_bounds.upper.isEmpty)
        (hash_schema.getD i []) ranges ↔
      ∃ r ∈ ranges, ∃ b, b < (hash_schema.getD i []).length ∧
        (hash_schema.getD i []).getD b false = true ∧
        q.start = r.start ++ enc32 b ∧
        q.stop = r.stop ++ enc32
          (if i = constrainedIndex hash_schema range_bounds - 1 ∧
              range_bounds.upper = [] then b + 1 else b)) ∧
    (∀ n k, 0 < n → n < 2 ^ 32 →
      ltKey (enc32 (n - 1) ++ k) (enc32 n) = true) := by
  constructor
  · have hflag : ((i + 1 == constrainedIndex hash_schema range_bounds) &&
        range_bounds.upper.isEmpty) =
        decide (i = constrainedIndex hash_schema range_bounds - 1 ∧
          range_bounds.upper = []) := by
      rw [Bool.eq_iff_iff]
      simp only [Bool.and_eq_true, beq_iff_eq, List.isEmpty_iff,
        decide_eq_true_eq]
      constructor
      · rintro ⟨h1, h2⟩
        exact ⟨by omega, h2⟩
      · rintro ⟨h1, h2⟩
        exact ⟨by omega, h2⟩
    rw [hflag, mem_hashStep]
    constructor
    · rintro ⟨r, hr, b, hb, rfl⟩
      obtain ⟨hb1, hb2⟩ := mem_survivors.mp hb
      refine ⟨r, hr, b, hb1, hb2, rfl, ?_⟩
      by_cases hc : (i = constrainedIndex hash_schema range_bounds - 1 ∧
          range_bounds.upper = [])
      · simp [hc]
      · simp [hc]
    · rintro ⟨r, hr, b, hb1, hb2, hstart, hstop⟩
      refine ⟨r, hr, b, mem_survivors.mpr ⟨hb1, hb2⟩, ?_⟩
      cases q
      simp only at hstart hstop
      subst hstart
      subst hstop
      by_cases hc : (i = constrainedIndex hash_schema range_bounds - 1 ∧
          range_bounds.upper = [])
      · simp [hc]
      · simp [hc]
  · intro n k h1 h2
    have h3 := ltKey_append_of_ltKey_of_length_eq
      (a := enc32 (n - 1)) (b := enc32 n) rfl
      (ltKey_enc32 (by omega) h2) k []
    simpa using h3

/-- C5 witness: one dimension of two buckets with bucket 1 pruned and no
range bounds: the constrained index is 1, the surviving bucket 0 is
extended to the exclusive upper `enc32 1`, and `enc32 2` exceeds any key
extending `enc32 1`. -/
theorem c5_witness :
    (⟨enc32 0, enc32 1⟩ : PartitionKeyRange) ∈
      hashStep ((0 + 1 == constrainedIndex [[true, false]] ⟨[], []⟩) &&
        (RangeBounds.upper ⟨[], []⟩).isEmpty) ([[true, false]].getD 0 [])
        [⟨[], []⟩] ∧
    ltKey (enc32 1 ++ [7]) (enc32 2) = true := by
  have h := c5_cross_product [[true, false]] ⟨[], []⟩ 0 (by decide)
    [⟨[], []⟩] ⟨enc32 0, enc32 1⟩
  exact ⟨h.1.mpr ⟨⟨[], []⟩, by decide, 0, by decide, by decide, by decide,
    by decide⟩, h.2 2 [7] (by decide) (by decide)⟩

/-! ## Well-formedness of the constructed cursor (towards C2 and C3) -/

theorem ltKey_nil_right (a : Key) : ltKey a [] = false := by
  cases a <;> rfl

theorem leKey_append_left (c a b : Key) : leKey (c ++ a) (c ++ b) = leKey a b := by
  unfold leKey
  rw [ltKey_append_left]

theorem leKey_enc32_of_le {m n : Nat} (h : m ≤ n) (hn : n < 2 ^ 32) :
    leKey (enc32 m) (enc32 n) = true := by
  rcases Nat.eq_or_lt_of_le h with rfl | h2
  · exact leKey_refl _
  · exact leKey_of_ltKey (ltKey_enc32 h2 hn)

theorem pairwise_imp_of_mem {α : Type} {R S : α → α → Prop} :
    ∀ {l : List α}, (∀ a ∈ l, ∀ b ∈ l, R a b → S a b) →
      l.Pairwise R → l.Pairwise S
  | [], _, _ => List.Pairwise.nil
  | x :: xs, h2, h => by
    rw [List.pairwise_cons] at h ⊢
    exact ⟨fun b hb => h2 x (by simp) b (by simp [hb]) (h.1 b hb),
      pairwise_imp_of_mem
        (fun a ha b hb => h2 a (by simp [ha]) b (by simp [hb])) h.2⟩

theorem survivors_sorted (bs : List Bool) : (survivors bs).Pairwise (· < ·) :=
  List.Pairwise.filter _ (List.pairwise_lt_range bs.length)

theorem enc32_ne_nil (n : Nat) : enc32 n ≠ [] := by simp [enc32]

theorem append_enc32_ne_nil (c : Key) (n : Nat) : c ++ enc32 n ≠ [] := by
  simp [enc32]

/-- The non-final cross-product step preserves the working-set
invariant (each range still has `start = end`, lengths grow by the
4-byte bucket encoding, and sortedness is preserved). -/
theorem hashStep_crossState {L : Nat} {bs : List Bool}
    (hbs : bs.length ≤ 2 ^ 32) :
    ∀ {l : List PartitionKeyRange}, crossState L l →
      crossState (L + 4) (hashStep false bs l)
  | [], _ => ⟨by simp [hashStep], by simp [hashStep]⟩
  | r :: rest, h => by
    obtain ⟨hmem, hpw⟩ := h
    have hr := hmem r (by simp)
    have ihres := hashStep_crossState hbs (l := rest)
      ⟨fun r2 hr2 => hmem r2 (by simp [hr2]), (List.pairwise_cons.mp hpw).2⟩
    constructor
    · intro q hq
      rw [show hashStep false bs (r :: rest) =
          ((survivors bs).map (fun bucket =>
            (⟨r.start ++ enc32 bucket, r.stop ++ enc32 bucket⟩ :
              PartitionKeyRange))) ++ hashStep false bs rest from rfl] at hq
      rcases List.mem_append.mp hq with hq | hq
      · obtain ⟨b, _, rfl⟩ := List.mem_map.mp hq
        exact ⟨by rw [hr.1], by simp [hr.2, enc32_length]⟩
      · exact ihres.1 q hq
    · rw [show hashStep false bs (r :: rest) =
          ((survivors bs).map (fun bucket =>
            (⟨r.start ++ enc32 bucket, r.stop ++ enc32 bucket⟩ :
              PartitionKeyRange))) ++ hashStep false bs rest from rfl]
      rw [List.pairwise_append]
      refine ⟨?_, ihres.2, ?_⟩
      · rw [List.pairwise_map]
        apply pairwise_imp_of_mem (R := (· < ·))
        · intro a ha b hb hab
          have hblt : b < 2 ^ 32 :=
            lt_of_lt_of_le (mem_survivors.mp hb).1 hbs
          unfold startLt
          simp only
          rw [ltKey_append_left]
          exact ltKey_enc32 hab hblt
        · exact survivors_sorted bs
      · intro x hx y hy
        obtain ⟨b, _, rfl⟩ := List.mem_map.mp hx
        obtain ⟨r2, hr2, b2, _, rfl⟩ := (mem_hashStep false bs rest y).mp hy
        have hrr2 : startLt r r2 := (List.pairwise_cons.mp hpw).1 r2 hr2
        have hlen2 : r2.start.length = L := (hmem r2 (by simp [hr2])).2
        unfold startLt at hrr2 ⊢
        simp only
        exact ltKey_append_of_ltKey_of_length_eq
          (by rw [hr.2, hlen2]) hrr2 _ _

/-- The final cross-product step (bucket incremented on the end) turns
the working-set invariant into full well-formedness. -/
theorem hashStep_wfCross {L : Nat} {bs : List Bool}
    (hbs : bs.length < 2 ^ 32) :
    ∀ {l : List PartitionKeyRange}, crossState L l →
      wfCross (L + 4) (hashStep true bs l)
  | [], _ => ⟨⟨List.Pairwise.nil, by simp [hashStep]⟩, by simp [hashStep]⟩
  | r :: rest, h => by
    obtain ⟨hmem, hpw⟩ := h
    have hr := hmem r (by simp)
    have ihres := hashStep_wfCross hbs (l := rest)
      ⟨fun r2 hr2 => hmem r2 (by simp [hr2]), (List.pairwise_cons.mp hpw).2⟩
    have hexp : hashStep true bs (r :: rest) =
        ((survivors bs).map (fun bucket =>
          (⟨r.start ++ enc32 bucket, r.stop ++ enc32 (bucket + 1)⟩ :
            PartitionKeyRange))) ++ hashStep true bs rest := rfl
    have hlenmem : ∀ q ∈ hashStep true bs (r :: rest),
        q.start.length = L + 4 ∧ q.stop.length = L + 4 := by
      intro q hq
      rw [hexp] at hq
      rcases List.mem_append.mp hq with hq | hq
      · obtain ⟨b, _, rfl⟩ := List.mem_map.mp hq
        refine ⟨by simp [hr.2, enc32_length], ?_⟩
        have : r.stop.length = L := by rw [← hr.1, hr.2]
        simp [this, enc32_length]
      · exact ihres.2 q hq
    refine ⟨⟨?_, ?_⟩, hlenmem⟩
    · -- Pairwise adjOK
      rw [hexp, List.pairwise_append]
      refine ⟨?_, ihres.1.1, ?_⟩
      · rw [List.pairwise_map]
        apply pairwise_imp_of_mem (R := (· < ·))
        · intro a ha b hb hab
          have hblt : b < 2 ^ 32 := lt_trans (mem_survivors.mp hb).1 hbs
          refine ⟨append_enc32_ne_nil _ _, ?_⟩
          simp only
          rw [← hr.1, leKey_append_left]
          exact leKey_enc32_of_le (by omega) hblt
        · exact survivors_sorted bs
      · intro x hx y hy
        obtain ⟨b, _, rfl⟩ := List.mem_map.mp hx
        obtain ⟨r2, hr2, b2, _, rfl⟩ := (mem_hashStep true bs rest y).mp hy
        have hrr2 : startLt r r2 := (List.pairwise_cons.mp hpw).1 r2 hr2
        have hlen2 : r2.start.length = L := (hmem r2 (by simp [hr2])).2
        refine ⟨append_enc32_ne_nil _ _, ?_⟩
        simp only
        have hst : ltKey r.stop r2.start = true := by
          rw [← hr.1]
          exact hrr2
        have hlenst : r.stop.length = r2.start.length := by
          rw [← hr.1, hr.2, hlen2]
        exact leKey_of_ltKey (ltKey_append_of_ltKey_of_length_eq hlenst hst _ _)
    · -- wfRange of every member
      intro q hq
      rw [hexp] at hq
      rcases List.mem_append.mp hq with hq | hq
      · obtain ⟨b, hb, rfl⟩ := List.mem_map.mp hq
        right
        simp only
        rw [← hr.1, ltKey_append_left]
        have hb1 : b + 1 < 2 ^ 32 := by
          have := (mem_survivors.mp hb).1
          omega
        exact ltKey_enc32 (by omega) hb1
      · exact ihres.1.2 q hq

/-- The cross-product fold over non-final dimensions (all loop flags
false) maintains the working-set invariant. -/
theorem foldl_crossState (hs : HashSchema) (rb : RangeBounds)
    (hhs : wfHashSchema hs) :
    ∀ k, k ≤ hs.length →
      (∀ i, i < k →
        ((i + 1 == constrainedIndex hs rb) && rb.upper.isEmpty) = false) →
      crossState (4 * k)
        ((List.range k).foldl
          (fun acc hash_idx =>
            hashStep
              ((hash_idx + 1 == constrainedIndex hs rb) && rb.upper.isEmpty)
              (hs.getD hash_idx []) acc)
          [⟨[], []⟩])
  | 0, _, _ => by
    refine ⟨?_, by simp⟩
    intro r hr
    simp only [List.range_zero, List.foldl_nil, List.mem_singleton] at hr
    subst hr
    exact ⟨rfl, rfl⟩
  | k + 1, hk, hflag => by
    rw [List.range_succ, List.foldl_append]
    simp only [List.foldl_cons, List.foldl_nil]
    rw [hflag k (by omega)]
    have ih := foldl_crossState hs rb hhs k (by omega)
      (fun i hi => hflag i (by omega))
    have hbs : (hs.getD k []).length ≤ 2 ^ 32 := by
      have hk2 : k < hs.length := by omega
      rw [List.getD_eq_getElem hs [] hk2]
      exact le_of_lt (hhs _ (List.getElem_mem hk2))
    have hstep := hashStep_crossState hbs ih
    have heq : 4 * k + 4 = 4 * (k + 1) := by omega
    rw [← heq]
    exact hstep

/-- Appending non-empty range bounds (`lower < upper`) to a sorted
working set yields a well-formed list. -/
theorem append_bounds_wf_of_upper_ne {L : Nat} {rl ru : Key}
    (hru : ru ≠ []) (hlt : ltKey rl ru = true)
    {l : List PartitionKeyRange} (h : crossState L l) :
    wfAsc (l.map (fun r =>
      (⟨r.start ++ rl, r.stop ++ ru⟩ : PartitionKeyRange))) := by
  obtain ⟨hmem, hpw⟩ := h
  constructor
  · rw [List.pairwise_map]
    apply pairwise_imp_of_mem (R := startLt) _ hpw
    intro a ha b hb hab
    refine ⟨by simp [hru], ?_⟩
    simp only
    rw [← (hmem a ha).1]
    apply leKey_of_ltKey
    exact ltKey_append_of_ltKey_of_length_eq
      (by rw [(hmem a ha).2, (hmem b hb).2]) hab _ _
  · intro q hq
    obtain ⟨r, hr, rfl⟩ := List.mem_map.mp hq
    right
    simp only
    rw [← (hmem r hr).1, ltKey_append_left]
    exact hlt

/-- Appending only a lower range bound (empty upper) to the output of
the final constrained hash step keeps it well-formed. -/
theorem append_lower_wf {L : Nat} (rl : Key)
    {l : List PartitionKeyRange} (h : wfCross L l) :
    wfAsc (l.map (fun r =>
      (⟨r.start ++ rl, r.stop⟩ : PartitionKeyRange))) := by
  obtain ⟨⟨hpw, hwf⟩, hlen⟩ := h
  constructor
  · rw [List.pairwise_map]
    apply pairwise_imp_of_mem (R := adjOK) _ hpw
    intro a ha b hb hab
    refine ⟨hab.1, ?_⟩
    simp only
    exact leKey_append_of_leKey_of_length_eq
      (by rw [(hlen a ha).2, (hlen b hb).1]) hab.2 _
  · intro q hq
    obtain ⟨r, hr, rfl⟩ := List.mem_map.mp hq
    rcases hwf r hr with hstop | hstop
    · left
      exact hstop
    · right
      simp only
      have := ltKey_append_of_ltKey_of_length_eq
        (by rw [(hlen r hr).1, (hlen r hr).2]) hstop rl []
      simpa using this

theorem wfAsc_reverse_iff (l : List PartitionKeyRange) :
    wfAsc l.reverse ↔
      (l.Pairwise (fun a b => adjOK b a) ∧ ∀ r ∈ l, wfRange r) := by
  unfold wfAsc
  rw [List.pairwise_reverse]
  simp [List.mem_reverse]

/-- Trimming to the scan's upper bound partition key preserves
well-formedness (stated on the reversed, descending list the. loop
walks). -/
theorem trim_desc_wf {spu : Key} :
    ∀ {l : List PartitionKeyRange},
      l.Pairwise (fun a b => adjOK b a) → (∀ r ∈ l, wfRange r) →
      (trimToUpperDesc spu l).Pairwise (fun a b => adjOK b a) ∧
        ∀ r ∈ trimToUpperDesc spu l, wfRange r
  | [], _, _ => ⟨List.Pairwise.nil, by simp [trimToUpperDesc]⟩
  | r :: rest, hpw, hwf => by
    unfold trimToUpperDesc
    by_cases h1 : (!r.stop.isEmpty && leKey r.stop spu) = true
    · rw [if_pos h1]
      exact ⟨hpw, hwf⟩
    · rw [if_neg h1]
      by_cases h2 : leKey spu r.start = true
      · rw [if_pos h2]
        exact trim_desc_wf (List.pairwise_cons.mp hpw).2
          (fun x hx => hwf x (by simp [hx]))
      · rw [if_neg h2]
        have hstart : ltKey r.start spu = true := by
          have h3 : leKey spu r.start = false := by
            cases hh : leKey spu r.start
            · rfl
            · exact absurd hh h2
          unfold leKey at h3
          simpa using h3
        have htrim : trimToUpperDesc spu rest = rest := by
          cases rest with
          | nil => rfl
          | cons r2 rest2 =>
            have hadj : adjOK r2 r := (List.pairwise_cons.mp hpw).1 r2 (by simp)
            have hcond : (!r2.stop.isEmpty && leKey r2.stop spu) = true := by
              rw [Bool.and_eq_true]
              refine ⟨by simp [List.isEmpty_eq_false.mpr hadj.1], ?_⟩
              exact leKey_of_ltKey (ltKey_of_leKey_of_ltKey hadj.2 hstart)
            unfold trimToUpperDesc
            rw [if_pos hcond]
        rw [htrim]
        constructor
        · rw [List.pairwise_cons] at hpw ⊢
          exact ⟨fun b hb => ⟨(hpw.1 b hb).1, (hpw.1 b hb).2⟩, hpw.2⟩
        · intro x hx
          rcases List.mem_cons.mp hx with rfl | hx2
          · right
            exact hstart
          · exact hwf x (by simp [hx2])

theorem trim_preserves_wfAsc {spu : Key} {l : List PartitionKeyRange}
    (h : wfAsc l) : wfAsc ((trimToUpperDesc spu l.reverse).reverse) := by
  rw [wfAsc_reverse_iff]
  have h2 := (wfAsc_reverse_iff l.reverse).mp (by rwa [List.reverse_reverse])
  exact trim_desc_wf h2.1 h2.2

/-- `RemovePartitionKeyRange`'s bucket loop preserves well-formedness,
and afterwards every remaining range starts at or above `upper`. -/
theorem removeFromBucketAsc_wf {u : Key} :
    ∀ {l : List PartitionKeyRange}, wfAsc l →
      wfAsc (removeFromBucketAsc u l) ∧
        ∀ r ∈ removeFromBucketAsc u l, leKey u r.start = true
  | [], _ => ⟨⟨List.Pairwise.nil, by simp [removeFromBucketAsc]⟩,
      by simp [removeFromBucketAsc]⟩
  | r :: rest, h => by
    obtain ⟨hpw, hwf⟩ := h
    unfold removeFromBucketAsc
    by_cases h1 : leKey u r.start = true
    · rw [if_pos h1]
      refine ⟨⟨hpw, hwf⟩, ?_⟩
      intro x hx
      rcases List.mem_cons.mp hx with rfl | hx2
      · exact h1
      · have hadj : adjOK r x := (List.pairwise_cons.mp hpw).1 x hx2
        rcases hwf r (by simp) with hstop | hstop
        · exact absurd hstop hadj.1
        · exact leKey_trans h1 (leKey_trans (leKey_of_ltKey hstop) hadj.2)
    · rw [if_neg h1]
      by_cases h2 : (r.stop.isEmpty || ltKey u r.stop) = true
      · rw [if_pos h2]
        have htail : removeFromBucketAsc u rest = rest := by
          cases rest with
          | nil => rfl
          | cons r2 rest2 =>
            have hadj : adjOK r r2 := (List.pairwise_cons.mp hpw).1 r2 (by simp)
            have hlt : ltKey u r.stop = true := by
              rcases Bool.or_eq_true_iff.mp h2 with h3 | h3
              · exact absurd (List.isEmpty_iff.mp h3) hadj.1
              · exact h3
            unfold removeFromBucketAsc
            rw [if_pos (leKey_of_ltKey (ltKey_of_ltKey_of_leKey hlt hadj.2))]
        rw [htail]
        refine ⟨⟨?_, ?_⟩, ?_⟩
        · rw [List.pairwise_cons] at hpw ⊢
          exact ⟨fun b hb => ⟨(hpw.1 b hb).1, (hpw.1 b hb).2⟩, hpw.2⟩
        · intro x hx
          rcases List.mem_cons.mp hx with rfl | hx2
          · rcases Bool.or_eq_true_iff.mp h2 with h3 | h3
            · left
              exact List.isEmpty_iff.mp h3
            · right
              exact h3
          · exact hwf x (by simp [hx2])
        · intro x hx
          rcases List.mem_cons.mp hx with rfl | hx2
          · exact leKey_refl u
          · have hadj : adjOK r x := (List.pairwise_cons.mp hpw).1 x hx2
            have hlt : ltKey u r.stop = true := by
              rcases Bool.or_eq_true_iff.mp h2 with h3 | h3
              · exact absurd (List.isEmpty_iff.mp h3) hadj.1
              · exact h3
            exact leKey_of_ltKey (ltKey_of_ltKey_of_leKey hlt hadj.2)
      · rw [if_neg h2]
        exact removeFromBucketAsc_wf
          ⟨(List.pairwise_cons.mp hpw).2, fun x hx => hwf x (by simp [hx])⟩

theorem constrainedIndex_le (hs : HashSchema) (rb : RangeBounds) :
    constrainedIndex hs rb ≤ hs.length := by
  unfold constrainedIndex
  split
  · exact le_refl _
  · exact Nat.sub_le _ _

/-- Appending an empty upper bound is the identity on the `end` keys. -/
theorem map_append_nil_eq (rl : Key) (l : List PartitionKeyRange) :
    l.map (fun r =>
      (⟨r.start ++ rl, r.stop ++ ([] : Key)⟩ : PartitionKeyRange)) =
    l.map (fun r => (⟨r.start ++ rl, r.stop⟩ : PartitionKeyRange)) := by
  apply List.map_congr_left
  intro r _
  simp

/-- The output of `ConstructPartitionKeyRanges` is a well-formed
ascending list whenever the bounds are well-formed and every bucket
count fits in 32 bits. -/
theorem construct_wf (ss : ScanSpec) (hs : HashSchema) (rb : RangeBounds)
    (hhs : wfHashSchema hs) (hrb : wfBounds rb) :
    wfAsc (ConstructPartitionKeyRanges ss hs rb) := by
  have happ : wfAsc
      (((List.range (constrainedIndex hs rb)).foldl
        (fun acc hash_idx =>
          hashStep
            ((hash_idx + 1 == constrainedIndex hs rb) && rb.upper.isEmpty)
            (hs.getD hash_idx []) acc)
        [⟨[], []⟩]).map
        (fun r => ⟨r.start ++ rb.lower, r.stop ++ rb.upper⟩)) := by
    by_cases hru : rb.upper = []
    · rcases hci : constrainedIndex hs rb with _ | k
      · simp only [List.range_zero, List.foldl_nil, List.map_cons,
          List.map_nil]
        refine ⟨List.pairwise_singleton _ _, ?_⟩
        intro r hr
        simp only [List.mem_singleton] at hr
        subst hr
        left
        simp [hru]
      · rw [List.range_succ, List.foldl_append, List.foldl_cons,
          List.foldl_nil]
        have hle := constrainedIndex_le hs rb
        have hk : k < hs.length := by omega
        have hflags : ∀ i, i < k →
            ((i + 1 == constrainedIndex hs rb) && rb.upper.isEmpty) =
              false := by
          intro i hi
          have h5 : (i + 1 == constrainedIndex hs rb) = false := by
            rw [Bool.eq_false_iff]
            simp only [ne_eq, beq_iff_eq]
            omega
          rw [h5, Bool.false_and]
        have hck := foldl_crossState hs rb hhs k (by omega) hflags
        rw [hci] at hck
        have hflagk : ((k + 1 == k + 1) && rb.upper.isEmpty) = true := by
          rw [hru]
          simp
        rw [hflagk]
        have hbs : (hs.getD k []).length < 2 ^ 32 := by
          rw [List.getD_eq_getElem hs [] hk]
          exact hhs _ (List.getElem_mem hk)
        have hwfc := hashStep_wfCross hbs hck
        rw [hru] at hwfc
        rw [hru, map_append_nil_eq]
        exact append_lower_wf rb.lower hwfc
    · have hflags : ∀ i, i < constrainedIndex hs rb →
          ((i + 1 == constrainedIndex hs rb) && rb.upper.isEmpty) =
            false := by
        intro i _
        rw [List.isEmpty_eq_false.mpr hru, Bool.and_false]
      have hck := foldl_crossState hs rb hhs (constrainedIndex hs rb)
        (constrainedIndex_le hs rb) hflags
      have hlt : ltKey rb.lower rb.upper = true := by
        rcases hrb with h | h
        · exact absurd h hru
        · exact h
      exact append_bounds_wf_of_upper_ne hru hlt hck
  unfold ConstructPartitionKeyRanges
  simp only
  by_cases hspu : ss.exclusive_upper_bound_partition_key.isEmpty = true
  · rw [if_pos hspu]
    exact happ
  · rw [if_neg hspu]
    exact trim_preserves_wfAsc happ

theorem remove_wf_pruner {u : Key} (hu : u ≠ []) {p : PartitionPruner}
    (h : wfPruner p) : wfPruner (RemovePartitionKeyRange p u) := by
  unfold RemovePartitionKeyRange
  rw [if_neg (by simp [hu])]
  intro b hb
  obtain ⟨b0, hb0, rfl⟩ := List.mem_map.mp hb
  unfold wfBucket
  simp only
  rw [List.reverse_reverse]
  exact (removeFromBucketAsc_wf (h b0 hb0)).1

/-- After `RemovePartitionKeyRange` with a non-empty bound, every
remaining range in every bucket starts at or above the bound. -/
theorem remove_all_ge {u : Key} (hu : u ≠ []) {p : PartitionPruner}
    (h : wfPruner p) :
    ∀ b ∈ (RemovePartitionKeyRange p u).range_bounds_to_partition_key_ranges,
      ∀ r ∈ b.partition_key_ranges, leKey u r.start = true := by
  unfold RemovePartitionKeyRange
  rw [if_neg (by simp [hu])]
  intro b hb r hr
  obtain ⟨b0, hb0, rfl⟩ := List.mem_map.mp hb
  simp only at hr
  rw [List.mem_reverse] at hr
  exact (removeFromBucketAsc_wf (h b0 hb0)).2 r hr

/-- `Init` establishes the cursor's well-formedness invariant. -/
theorem init_wf (ps : PartitionSchema) (ss : ScanSpec) (srl sru : Key)
    (hhs : wfHashSchema ps.hash_schema)
    (hhs2 : ∀ seg ∈ ps.ranges_with_hash_schemas, wfHashSchema seg.hash_schema)
    (hscan : wfBounds ⟨srl, sru⟩)
    (hsegb : ∀ seg ∈ ps.ranges_with_hash_schemas,
      wfBounds ⟨seg.lower, seg.upper⟩) :
    wfPruner (Init ps ss srl sru) := by
  unfold Init
  by_cases hsc : ss.can_short_circuit = true
  · rw [if_pos hsc]
    intro b hb
    simp at hb
  · rw [if_neg hsc]
    simp only
    have hwfp : wfPruner
        (⟨if ps.ranges_with_hash_schemas.isEmpty then
            [⟨⟨[], []⟩, (ConstructPartitionKeyRanges ss ps.hash_schema
              ⟨srl, sru⟩).reverse⟩]
          else
            (ps.ranges_with_hash_schemas.filter
              (includeSegment srl sru)).map
              (fun range =>
                ⟨⟨range.lower, range.upper⟩,
                 (ConstructPartitionKeyRanges ss range.hash_schema
                   (boundsForSegment srl sru range)).reverse⟩)⟩ :
          PartitionPruner) := by
      intro b hb
      simp only at hb
      by_cases hseg : ps.ranges_with_hash_schemas.isEmpty = true
      · rw [if_pos hseg] at hb
        simp only [List.mem_singleton] at hb
        subst hb
        unfold wfBucket
        simp only
        rw [List.reverse_reverse]
        exact construct_wf ss ps.hash_schema ⟨srl, sru⟩ hhs hscan
      · rw [if_neg hseg] at hb
        obtain ⟨seg, hsegmem, rfl⟩ := List.mem_map.mp hb
        have hsegmem2 : seg ∈ ps.ranges_with_hash_schemas :=
          List.mem_of_mem_filter hsegmem
        unfold wfBucket
        simp only
        rw [List.reverse_reverse]
        apply construct_wf
        · exact hhs2 seg hsegmem2
        · unfold boundsForSegment
          by_cases hb2 : (srl.isEmpty && sru.isEmpty) = true
          · rw [if_pos hb2]
            exact hsegb seg hsegmem2
          · rw [if_neg hb2]
            exact hscan
    by_cases hlb : ss.lower_bound_partition_key.isEmpty = true
    · rw [if_pos hlb]
      exact hwfp
    · rw [if_neg hlb]
      have hne : ss.lower_bound_partition_key ≠ [] := by
        intro h
        rw [h] at hlb
        exact hlb rfl
      exact remove_wf_pruner hne hwfp

theorem nextPartitionKey_some {p : PartitionPruner} {k : Key}
    (h : NextPartitionKey p = some k) :
    ∃ b, p.range_bounds_to_partition_key_ranges.getLast? = some b ∧
      ∃ r, b.partition_key_ranges.getLast? = some r ∧ r.start = k := by
  unfold NextPartitionKey at h
  rcases hlast : p.range_bounds_to_partition_key_ranges.getLast? with _ | b
  · rw [hlast] at h
    cases h
  · rw [hlast] at h
    simp only at h
    obtain ⟨r, hr, hrk⟩ := Option.map_eq_some'.mp h
    exact ⟨b, rfl, r, hr, hrk⟩

/-! ## C2: ordering of the cursor after `Init` -/

/-- C2, counterexample: two custom range segments, each with its own
2-bucket hash schema and no scan constraints.  After `Init` the
concatenation of the buckets' ranges in natural order interleaves the
hash-bucket prefixes of the two segments, so it is **not** ascending:
the second key of segment 1 (bucket 1) exceeds the first key of
segment 2 (bucket 0). -/
theorem c2_counterexample :
    ((Init ⟨[], [⟨[1], [2], [[true, true]]⟩, ⟨[2], [3], [[true, true]]⟩]⟩
        ⟨false, [], []⟩ [] []).range_bounds_to_partition_key_ranges.map
      (fun b => b.partition_key_ranges.reverse)).flatten =
      [⟨[0, 0, 0, 0, 1], [0, 0, 0, 0, 2]⟩, ⟨[0, 0, 0, 1, 1], [0, 0, 0, 1, 2]⟩,
       ⟨[0, 0, 0, 0, 2], [0, 0, 0, 0, 3]⟩,
       ⟨[0, 0, 0, 1, 2], [0, 0, 0, 1, 3]⟩] ∧
    ¬ ([⟨[0, 0, 0, 0, 1], [0, 0, 0, 0, 2]⟩, ⟨[0, 0, 0, 1, 1], [0, 0, 0, 1, 2]⟩,
        ⟨[0, 0, 0, 0, 2], [0, 0, 0, 0, 3]⟩,
        ⟨[0, 0, 0, 1, 2], [0, 0, 0, 1, 3]⟩] :
        List PartitionKeyRange).Pairwise startLt :=
  ⟨by decide, by decide⟩

/-- C2 (amended): immediately after init, **within each bucket** the
partition key ranges in natural (non-reversed) order are strictly
ascending in encoded start key; the full cross-bucket concatenation is
ascending only in the no-custom-segments case, where there is a single
bucket. -/
theorem c2_init_sorted (ps : PartitionSchema) (ss : ScanSpec)
    (srl sru : Key) (hhs : wfHashSchema ps.hash_schema)
    (hhs2 : ∀ seg ∈ ps.ranges_with_hash_schemas, wfHashSchema seg.hash_schema)
    (hscan : wfBounds ⟨srl, sru⟩)
    (hsegb : ∀ seg ∈ ps.ranges_with_hash_schemas,
      wfBounds ⟨seg.lower, seg.upper⟩) :
    ∀ b ∈ (Init ps ss srl sru).range_bounds_to_partition_key_ranges,
      b.partition_key_ranges.reverse.Pairwise startLt := by
  intro b hb
  obtain ⟨hpw, hwfr⟩ := init_wf ps ss srl sru hhs hhs2 hscan hsegb b hb
  apply pairwise_imp_of_mem _ hpw
  intro a ha b2 hb2 hab
  rcases hwfr a ha with hstop | hstop
  · exact absurd hstop hab.1
  · exact ltKey_of_ltKey_of_leKey hstop hab.2

/-- C2 witness: the amended ordering at the first bucket of the
counterexample instance. -/
theorem c2_witness :
    (⟨⟨[1], [2]⟩,
      [⟨[0, 0, 0, 1, 1], [0, 0, 0, 1, 2]⟩,
       ⟨[0, 0, 0, 0, 1], [0, 0, 0, 0, 2]⟩]⟩ :
      RangeBoundsAndPartitionKeyRanges).partition_key_ranges.reverse.Pairwise
      startLt :=
  c2_init_sorted
    ⟨[], [⟨[1], [2], [[true, true]]⟩, ⟨[2], [3], [[true, true]]⟩]⟩
    ⟨false, [], []⟩ [] [] (by decide) (by decide) (by decide) (by decide)
    _ (by decide)

/-! ## C3: monotonicity of the consumed cursor -/

/-- C3: for every initialized pruner and every interleaving in which
each `next()` is followed by `advance_past(end)` with `end` strictly
greater than the key `next()` returned, the keys returned by successive
`next()` calls are strictly ascending in memcmp order.  Formalized as:
`Init` establishes the well-formedness invariant, `advance_past`
preserves it, and from any well-formed state one
`next(); advance_past(end > next)` step makes the following `next()`
strictly larger — which covers every such interleaving by induction. -/
theorem c3_monotone_cursor :
    (∀ (ps : PartitionSchema) (ss : ScanSpec) (srl sru : Key),
      wfHashSchema ps.hash_schema →
      (∀ seg ∈ ps.ranges_with_hash_schemas, wfHashSchema seg.hash_schema) →
      wfBounds ⟨srl, sru⟩ →
      (∀ seg ∈ ps.ranges_with_hash_schemas,
        wfBounds ⟨seg.lower, seg.upper⟩) →
      wfPruner (Init ps ss srl sru)) ∧
    (∀ (p : PartitionPruner) (u k : Key), wfPruner p →
      NextPartitionKey p = some k → ltKey k u = true →
      wfPruner (RemovePartitionKeyRange p u) ∧
      ∀ k2, NextPartitionKey (RemovePartitionKeyRange p u) = some k2 →
        ltKey k k2 = true) := by
  refine ⟨init_wf, ?_⟩
  intro p u k hwf hnext hku
  have hu : u ≠ [] := by
    intro h
    subst h
    rw [ltKey_nil_right] at hku
    cases hku
  refine ⟨remove_wf_pruner hu hwf, ?_⟩
  intro k2 hnext2
  obtain ⟨b2, hb2last, r2, hr2last, hk2⟩ := nextPartitionKey_some hnext2
  have hge := remove_all_ge hu hwf b2 (getLast?_mem hb2last) r2
    (getLast?_mem hr2last)
  subst hk2
  exact ltKey_of_ltKey_of_leKey hku hge

/-- C3 witness: one step on a concrete two-range cursor: `next` returns
`[1]`, `advance_past [3]` consumes that range, and the following `next`
returns `[5] > [1]`. -/
theorem c3_witness :
    ltKey [1] [5] = true :=
  (c3_monotone_cursor.2 ⟨[⟨⟨[], []⟩, [⟨[5], [9]⟩, ⟨[1], [3]⟩]⟩]⟩ [3] [1]
    (by decide) (by decide) (by decide)).2 [5] (by decide)

end KuduPruner
